import Mathlib

/-!
Verification of the FoodPrint carbon-estimation core: the ingredient-name
normalizer, the footprint matcher and aggregator (`src/utils/helpers.ts`,
`src/utils/constants.ts`, `src/services/carbonService.ts`) and the text /
file-upload validation middleware (`src/middleware/validation.ts`).

The embedding models JavaScript strings as `List Char` (code points; all
characters relevant to the checked properties lie in the Basic Multilingual
Plane, where code points coincide with UTF-16 units), JavaScript numbers as
`ℚ`, and byte buffers as `List ℕ`.  `String.prototype.toLowerCase` is
modelled by the ASCII simple case mapping, which agrees with JavaScript on
every character the pipeline can keep.
-/

namespace FoodPrint

/-- `Math.round`: round half toward +∞, as an integer. -/
def jsRound (q : ℚ) : ℤ := ⌊q + 1/2⌋

/-- `Math.round(x * 100) / 100`: round to 2 decimal places. -/
def round2 (q : ℚ) : ℚ := (jsRound (q * 100) : ℚ) / 100

/-- The character class matched by the regex `\\s` (and removed by
`String.prototype.trim`): ASCII whitespace plus the Unicode space
characters, written by code point. -/
def isJsWs (c : Char) : Bool :=
  let n := c.toNat
  n = 0x20 || n = 0x9 || n = 0xa || n = 0xb || n = 0xc || n = 0xd ||
  n = 0xa0 || n = 0x1680 || (0x2000 <= n && n <= 0x200a) ||
  n = 0x2028 || n = 0x2029 || n = 0x202f || n = 0x205f || n = 0x3000 || n = 0xfeff

/-- Line terminators, which the regex `.` does not match. -/
def isLineTerm (c : Char) : Bool :=
  let n := c.toNat
  n = 0xa || n = 0xd || n = 0x2028 || n = 0x2029

/-- The regex word-character class `\w` = `[A-Za-z0-9_]`, used by `\b`. -/
def jsWordChar (c : Char) : Bool :=
  ('a' ≤ c && c ≤ 'z') || ('A' ≤ c && c ≤ 'Z') || ('0' ≤ c && c ≤ '9') || c = '_'

/-- ASCII lower-case mapping (embedding of `String.prototype.toLowerCase`). -/
def asciiToLower (c : Char) : Char :=
  if 'A' ≤ c ∧ c ≤ 'Z' then Char.ofNat (c.toNat + 32) else c

/-- `String.prototype.trim`. -/
def trimWs (s : List Char) : List Char :=
  ((s.dropWhile isJsWs).reverse.dropWhile isJsWs).reverse

/-- Auxiliary scanner for `.replace(/\s+/g, ' ')`: the flag records whether
the previous character belonged to a whitespace run (already emitted as a
single `' '`). -/
def collapseAux : Bool → List Char → List Char
  | _, [] => []
  | inRun, c :: cs =>
    if isJsWs c then
      if inRun then collapseAux true cs else ' ' :: collapseAux true cs
    else c :: collapseAux false cs

/-- `.replace(/\s+/g, ' ')`: collapse every whitespace run to one space. -/
def collapseWs (s : List Char) : List Char := collapseAux false s

/-- Characters kept by `.replace(/[^a-z0-9\s]/g, '')`. -/
def keepChar (c : Char) : Bool :=
  ('a' ≤ c && c ≤ 'z') || ('0' ≤ c && c ≤ '9') || isJsWs c

/-- The qualifier words removed by `.replace(/\b(fresh|dried|raw|cooked|organic|ground)\b/g, '')`,
in alternation order. -/
def QUALIFIER_WORDS : List (List Char) :=
  ["fresh".toList, "dried".toList, "raw".toList, "cooked".toList,
   "organic".toList, "ground".toList]

/-- Drop `p` from the front of `s` if it is a prefix. -/
def dropPrefixQ : List Char → List Char → Option (List Char)
  | [], s => some s
  | _, [] => none
  | p :: ps, c :: cs => if p = c then dropPrefixQ ps cs else none

/-- The trailing `\b` of the qualifier regex: the next character (if any)
must not be a word character. -/
def boundaryOk : List Char → Bool
  | [] => true
  | c :: _ => !jsWordChar c

/-- Try to match one qualifier word (with its trailing `\b`) at the head of
`s`; returns the remaining suffix on success. -/
def matchQual (s : List Char) : Option (List Char) :=
  QUALIFIER_WORDS.findSome? fun q =>
    match dropPrefixQ q s with
    | some r => if boundaryOk r then some r else none
    | none => none

/-- Character-level scanner for the global replace
`.replace(/\b(fresh|dried|raw|cooked|organic|ground)\b/g, '')`.
`prevW` records whether the previous character of the original string was a
word character (the leading `\b` of a match requires it not to be).  The
`fuel` argument, initialised to the string length, only serves termination:
each step consumes at least one character. -/
def dequalAux : Nat → Bool → List Char → List Char
  | 0, _, s => s
  | _ + 1, _, [] => []
  | fuel + 1, prevW, c :: cs =>
    if prevW then c :: dequalAux fuel (jsWordChar c) cs
    else
      match matchQual (c :: cs) with
      | some rest => dequalAux fuel true rest
      | none => c :: dequalAux fuel (jsWordChar c) cs

/-- `.replace(/\b(fresh|dried|raw|cooked|organic|ground)\b/g, '')`. -/
def removeQualifierWords (s : List Char) : List Char :=
  dequalAux s.length false s

/-- `normalizeIngredientName` (src/utils/helpers.ts): lower-case, trim,
strip `[^a-z0-9\s]`, collapse whitespace, remove qualifier words, trim. -/
def normalizeIngredientName (s : List Char) : List Char :=
  trimWs (removeQualifierWords (collapseWs ((trimWs (s.map asciiToLower)).filter keepChar)))

/-! ## Carbon footprint database (src/utils/constants.ts)

`CARBON_FOOTPRINT_DB` is an object literal whose keys are all non-integer
strings, so `Object.keys` iteration order is the declaration order below.
It is embedded as an association list in that order. -/

def CARBON_FOOTPRINT_DB : List (List Char × ℚ) :=
  [("beef".toList, 60.0), ("lamb".toList, 39.2), ("pork".toList, 12.1),
   ("chicken".toList, 6.9), ("fish".toList, 6.1), ("shrimp".toList, 18.0),
   ("eggs".toList, 4.2), ("milk".toList, 3.2), ("cheese".toList, 13.5),
   ("butter".toList, 23.8), ("rice".toList, 4.0), ("wheat".toList, 1.4),
   ("bread".toList, 1.6), ("pasta".toList, 1.1), ("potatoes".toList, 0.5),
   ("tomatoes".toList, 2.1), ("onions".toList, 0.5), ("carrots".toList, 0.4),
   ("olive oil".toList, 5.4), ("vegetable oil".toList, 3.2),
   ("salt".toList, 0.1), ("sugar".toList, 1.8), ("beans".toList, 2.0),
   ("lentils".toList, 1.9), ("tofu".toList, 3.0), ("nuts".toList, 2.3),
   ("spices".toList, 1.0), ("unknown".toList, 2.0)]

/-- Own-property lookup `database[k]` on the object literal. -/
def dbLookup (k : List Char) : Option ℚ :=
  (CARBON_FOOTPRINT_DB.find? fun e => e.1 = k).map Prod.snd

/-- Truthiness of `database[k]` (a present value `0` would be falsy). -/
def dbTruthy (k : List Char) : Bool :=
  match dbLookup k with
  | some v => v != 0
  | none => false

/-- `database[k]` where the key is guaranteed present (the matcher only
returns keys of the database). -/
def dbGet (k : List Char) : ℚ := (dbLookup k).getD 0

/-- `Object.keys(database)` in iteration order. -/
def dbKeys : List (List Char) := CARBON_FOOTPRINT_DB.map Prod.fst

/-- `a.includes(b)`: `b` occurs as a contiguous substring of `a`. -/
def jsIncludes (a b : List Char) : Bool :=
  match a with
  | [] => b.isEmpty
  | _ :: as => b.isPrefixOf a || jsIncludes as b

/-- Result shape of `findBestIngredientMatch`.  The source annotates the
return type with `| null`, but every code path returns an object, so the
embedding returns a plain `MatchResult`. -/
structure MatchResult where
  key : List Char
  confidence : ℚ
  deriving DecidableEq, Repr

/-- The keys collected by
`dbKeys.filter(key => normalized.includes(key) || key.includes(normalized))`. -/
def partialMatches (normalized : List Char) : List (List Char) :=
  dbKeys.filter fun key => jsIncludes normalized key || jsIncludes key normalized

/-- `findBestIngredientMatch` (src/utils/helpers.ts). -/
def findBestIngredientMatch (ingredientName : List Char) : MatchResult :=
  let normalized := normalizeIngredientName ingredientName
  if dbTruthy normalized then ⟨normalized, 1⟩
  else
    match partialMatches normalized with
    | [] => ⟨"unknown".toList, 0.3⟩
    | h :: t => ⟨t.foldl (fun a b => if a.length > b.length then a else b) h, 0.8⟩

/-! ## Carbon service (src/services/carbonService.ts)

Wall-clock timing (`process.hrtime`, `processing_time_ms`) is I/O and is
not modelled; the metadata retains only the `source` tag. -/

structure RawIngredient where
  name : List Char
  confidence : Option ℚ
  deriving DecidableEq, Repr

structure ResolvedIngredient where
  name : List Char
  carbon_kg : ℚ
  confidence : ℚ
  deriving DecidableEq, Repr

inductive Source | text | image
  deriving DecidableEq, Repr

structure CarbonEstimate where
  dish : List Char
  estimated_carbon_kg : ℚ
  ingredients : List ResolvedIngredient
  source : Source
  deriving DecidableEq, Repr

/-- JavaScript `x || d` for an optional number `x`: `undefined` and `0` are
falsy and select the default. -/
def jsOrDefault (x : Option ℚ) (d : ℚ) : ℚ :=
  match x with
  | some v => if v = 0 then d else v
  | none => d

/-- Body of the `ingredients.map` in `calculateCarbonFootprint`.  Since
`findBestIngredientMatch` never returns `null`, the `if (match)` branch is
always taken and the `DB.unknown` / `0.3` initialisers are dead. -/
def processIngredient (ingredient : RawIngredient) : ResolvedIngredient :=
  let normalizedName := normalizeIngredientName ingredient.name
  let m := findBestIngredientMatch normalizedName
  let carbonValue := dbGet m.key
  let confidence := m.confidence * jsOrDefault ingredient.confidence 0.8
  ⟨ingredient.name, round2 carbonValue, round2 confidence⟩

/-- `calculateCarbonFootprint` (src/services/carbonService.ts). -/
def calculateCarbonFootprint (dishName : List Char)
    (ingredients : List RawIngredient) (source : Source) : CarbonEstimate :=
  let processedIngredients := ingredients.map processIngredient
  let totalCarbon := processedIngredients.foldl (fun sum i => sum + i.carbon_kg) 0
  ⟨dishName, round2 totalCarbon, processedIngredients, source⟩

/-! ## Text validation middleware (src/middleware/validation.ts) -/

/-- The character class of the dish-name allowlist regex
`^[a-zA-Z0-9\s\-.,!?'"()À-ſ一-鿿؀-ۿऀ-ॿ]+$`. -/
def allowedChar (c : Char) : Bool :=
  let n := c.toNat
  ('a' ≤ c && c ≤ 'z') || ('A' ≤ c && c ≤ 'Z') || ('0' ≤ c && c ≤ '9') ||
  isJsWs c || c = '-' || c = '.' || c = ',' || c = '!' || c = '?' ||
  c = '\'' || c = '"' || c = '(' || c = ')' ||
  (0xC0 ≤ n && n ≤ 0x17F) || (0x4e00 ≤ n && n ≤ 0x9fff) ||
  (0x600 ≤ n && n ≤ 0x6ff) || (0x900 ≤ n && n ≤ 0x97f)

/-- The full-string dish-name pattern: one or more allowed characters. -/
def allowPattern (s : List Char) : Bool := !s.isEmpty && s.all allowedChar

/-- `s.map asciiToLower`: the subject canonicalisation of an `i`-flagged regex. -/
def toLowerList (s : List Char) : List Char := s.map asciiToLower

/-- `.test` of a case-insensitive literal-substring regex (`pat` given in
lower case). -/
def ciSub (pat s : List Char) : Bool := jsIncludes (toLowerList s) pat

/-- After the prefix `A` of an `A.*B` pattern: a gap of non-line-terminator
characters followed by an occurrence of `B`. -/
def gapThenPrefix (b : List Char) : List Char → Bool
  | [] => b.isEmpty
  | c :: cs => b.isPrefixOf (c :: cs) || (!isLineTerm c && gapThenPrefix b cs)

/-- Does any suffix of `s` satisfy `p` (regex search over every start
position)? -/
def anySuffix (p : List Char → Bool) : List Char → Bool
  | [] => p []
  | c :: cs => p (c :: cs) || anySuffix p cs

/-- `.test` of `/A.*B/i` (`a`, `b` given in lower case): `A`, then a gap
containing no line terminator, then `B`. -/
def ciGap (a b s : List Char) : Bool :=
  anySuffix
    (fun suf =>
      match dropPrefixQ a suf with
      | some r => gapThenPrefix b r
      | none => false)
    (toLowerList s)

/-- `\s*\(`: optional whitespace then an opening parenthesis. -/
def wsThenParen : List Char → Bool
  | [] => false
  | c :: cs => c = '(' || (isJsWs c && wsThenParen cs)

/-- `.test` of `/A\s*\(/i` (`a` given in lower case). -/
def ciCallPat (a s : List Char) : Bool :=
  anySuffix
    (fun suf =>
      match dropPrefixQ a suf with
      | some r => wsThenParen r
      | none => false)
    (toLowerList s)

/-- The `suspiciousPatterns` scan of `textEstimationSchema`'s custom rule, in
source order.  The 15th entry of the source list is the single regex
`/\.\.\\\/g, \/etc\/passwd/i` (an escaping slip that merges two intended
patterns), which matches the literal text `..\/g, /etc/passwd`.  The
`/\.\.\//g` entry carries the `g` flag and no `i` flag; with `.test` the `g`
flag makes the shared regex object stateful across calls, and it is modelled
here in its initial (`lastIndex = 0`) state. -/
def maliciousCheck (s : List Char) : Bool :=
  ciSub "<script".toList s || ciSub "javascript:".toList s ||
  ciSub "onload=".toList s || ciSub "onerror=".toList s ||
  ciGap "select".toList "from".toList s || ciGap "union".toList "select".toList s ||
  ciGap "drop".toList "table".toList s ||
  ciGap "insert".toList "into".toList s || ciGap "delete".toList "from".toList s ||
  ciGap "update".toList "set".toList s ||
  ciCallPat "exec".toList s || ciCallPat "eval".toList s ||
  ciCallPat "function".toList s ||
  jsIncludes s "../".toList ||
  ciSub "..\\/g, /etc/passwd".toList s ||
  ciSub "__proto__".toList s || ciSub "prototype".toList s ||
  ciSub "constructor".toList s

/-- Length of the run of copies of `c` at the head of the list. -/
def runLen (c : Char) : List Char → Nat
  | [] => 0
  | d :: ds => if d = c then runLen c ds + 1 else 0

/-- `.test` of `/(.)\1{50,}/`: 51 or more consecutive copies of one
character, the first of which must be matched by `.` (not a line
terminator). -/
def hasRepeatedRun : List Char → Bool
  | [] => false
  | c :: cs => (!isLineTerm c && 50 ≤ runLen c cs) || hasRepeatedRun cs

/-- Rejection reasons of the text-validation middleware, in check order. -/
inductive TextReason
  | bodyTooLarge | empty | tooShort | tooLong | invalidChars | malicious | repeated
  deriving DecidableEq, Repr

/-- UTF-16 length contribution of one code point. -/
def utf16Len (c : Char) : Nat := if 0x10000 ≤ c.toNat then 2 else 1

/-- `JSON.stringify` output length for one character of a string value. -/
def jsonEscLen (c : Char) : Nat :=
  if c = '"' || c = '\\' then 2
  else if c = '\x08' || c = '\t' || c = '\n' || c = '\x0c' || c = '\r' then 2
  else if c.toNat < 0x20 then 6
  else utf16Len c

/-- `JSON.stringify({dish: s}).length`: the framing `{"dish":"…"}` is 11
characters plus the escaped string. -/
def jsonBodyLen (s : List Char) : Nat := 11 + (s.map jsonEscLen).sum

/-- The Joi rule chain of `textEstimationSchema` applied to a string `dish`
value, in chained order (`min`, `max`, `pattern`, then the custom rule);
Joi rejects the empty string with `string.empty` before any rule runs, and
with `abortEarly` the first failing rule's reason is reported.  The custom
rule's empty-after-trim branch reuses the `string.empty` reason. -/
def validateDish (s : List Char) : Option TextReason :=
  if s.isEmpty then some .empty
  else if s.length < 1 then some .tooShort
  else if 200 < s.length then some .tooLong
  else if !allowPattern s then some .invalidChars
  else if (trimWs s).isEmpty then some .empty
  else if maliciousCheck s then some .malicious
  else if hasRepeatedRun s then some .repeated
  else none

/-- `validateTextEstimation` restricted to a body of the shape `{dish: s}`
with `s` a string: such a body is an object with one key, so only the
serialized-size check precedes the schema. -/
def validateTextBody (s : List Char) : Option TextReason :=
  if 10000 < jsonBodyLen s then some .bodyTooLarge
  else validateDish s

/-! ## File-upload validation middleware (src/middleware/validation.ts) -/

/-- Rejection reasons of `validateImageUpload`, in check order. -/
inductive FileReason
  | noFile | invalidType | tooLarge | emptyFile | nameTooLong | badExtension
  | tooSmall | headerMismatch
  deriving DecidableEq, Repr

/-- A decoded multipart file: buffer bytes, declared MIME type, reported
size, optional original filename. -/
structure UploadedFile where
  buffer : List Nat
  mimetype : String
  size : Nat
  originalname : Option (List Char)
  deriving DecidableEq, Repr

/-- The `allowedTypes` list. -/
def allowedTypes : List String :=
  ["image/jpeg", "image/jpg", "image/png", "image/webp"]

/-- The `suspiciousFilenames` extension denylist, in source order. -/
def suspiciousExtensions : List (List Char) :=
  [".exe".toList, ".bat".toList, ".cmd".toList, ".scr".toList, ".pif".toList,
   ".com".toList, ".jar".toList, ".php".toList, ".jsp".toList, ".asp".toList,
   ".js".toList, ".vbs".toList, ".sh".toList, ".py".toList]

/-- `ext.isSuffixOf name` without relying on a library `isSuffixOf`. -/
def endsWith (name ext : List Char) : Bool := ext.reverse.isPrefixOf name.reverse

/-- `suspiciousFilenames.some(pattern => pattern.test(name))`: the `/\.xxx$/i`
regexes test a case-insensitive suffix. -/
def hasSuspiciousExt (name : List Char) : Bool :=
  suspiciousExtensions.any fun ext => endsWith (toLowerList name) ext

/-- The `imageHeaders` table.  It has no entry for `image/jpg`, although
`allowedTypes` admits that MIME type. -/
def imageHeaders : List (String × List Nat) :=
  [("image/jpeg", [0xFF, 0xD8, 0xFF]),
   ("image/png", [0x89, 0x50, 0x4E, 0x47]),
   ("image/webp", [0x52, 0x49, 0x46, 0x46])]

/-- `Object.entries(imageHeaders).some(([type, header]) => type === mimetype
&& header.every((byte, i) => fileHeader[i] === byte))` with `fileHeader` the
first four buffer bytes (`undefined === byte` is false, so a short buffer
fails exactly like a prefix mismatch). -/
def isValidHeader (mimetype : String) (buffer : List Nat) : Bool :=
  imageHeaders.any fun e => e.1 = mimetype && e.2.isPrefixOf (buffer.take 4)

/-- `file.originalname && file.originalname.length > 255`: the check is
guarded by the truthiness of `file.originalname`, under which an absent name
and the empty string are both falsy. -/
def filenameTooLong (name? : Option (List Char)) : Bool :=
  match name? with
  | some n => !n.isEmpty && 255 < n.length
  | none => false

/-- `file.originalname && suspiciousFilenames.some(p => p.test(file.originalname))`,
with the same truthiness guard. -/
def filenameSuspicious (name? : Option (List Char)) : Bool :=
  match name? with
  | some n => !n.isEmpty && hasSuspiciousExt n
  | none => false

/-- `validateImageUpload` (src/middleware/validation.ts); `maxFileSizeMB`
embeds `config.upload.maxFileSizeMB` (default 10). -/
def validateImageUpload (maxFileSizeMB : Nat) (file? : Option UploadedFile) :
    Option FileReason :=
  match file? with
  | none => some .noFile
  | some file =>
    if !allowedTypes.contains file.mimetype then some .invalidType
    else if maxFileSizeMB * 1024 * 1024 < file.size then some .tooLarge
    else if file.buffer.isEmpty then some .emptyFile
    else if filenameTooLong file.originalname then some .nameTooLong
    else if filenameSuspicious file.originalname then some .badExtension
    else if file.buffer.length < 100 then some .tooSmall
    else if !isValidHeader file.mimetype file.buffer then some .headerMismatch
    else none


/-! ## Helper lemmas -/

lemma foldl_add_carbon (l : List ResolvedIngredient) (a : ℚ) :
    l.foldl (fun sum i => sum + i.carbon_kg) a
      = a + (l.map (fun i => i.carbon_kg)).sum := by
  induction l generalizing a with
  | nil => simp
  | cons h t ih => simp [ih, add_assoc]

lemma round2_zero : round2 0 = 0 := by with_unfolding_all rfl

/-- The step function of the `reduce` in `findBestIngredientMatch`:
`(a, b) => a.length > b.length ? a : b`. -/
def pickLonger (a b : List Char) : List Char := if a.length > b.length then a else b

/-- The element selected by the `reduce` in `findBestIngredientMatch` splits
its list into earlier elements of length at most its own and later elements
of strictly smaller length: it is the last element of maximal length. -/
lemma foldl_pick_spec (h : List Char) (t : List (List Char)) :
    ∃ l₁ l₂, h :: t = l₁ ++ (t.foldl pickLonger h) :: l₂
      ∧ (∀ x ∈ l₁, x.length ≤ (t.foldl pickLonger h).length)
      ∧ (∀ x ∈ l₂, x.length < (t.foldl pickLonger h).length) := by
  induction t generalizing h with
  | nil => exact ⟨[], [], rfl, by simp, by simp⟩
  | cons b t ih =>
    rw [List.foldl_cons]
    obtain ⟨l₁, l₂, heq, hle, hlt⟩ := ih (pickLonger h b)
    by_cases hc : h.length > b.length
    case pos =>
      have hpick : pickLonger h b = h := if_pos hc
      rw [hpick] at heq hle hlt ⊢
      cases l₁ with
      | nil =>
        injection heq with hh ht
        refine ⟨[], b :: t, ?_, by simp, ?_⟩
        · rw [List.nil_append, ← hh]
        · intro x hx
          rcases List.mem_cons.mp hx with rfl | hx
          · rw [← hh]; exact hc
          · exact hlt x (ht ▸ hx)
      | cons a l₁' =>
        injection heq with hh ht
        have ha : a.length ≤ (t.foldl pickLonger h).length :=
          hle a (List.mem_cons_self a l₁')
        refine ⟨h :: b :: l₁', l₂, ?_, ?_, hlt⟩
        · exact congrArg (fun l => h :: b :: l) ht
        · intro x hx
          rcases List.mem_cons.mp hx with rfl | hx
          · nth_rewrite 1 [hh]; exact ha
          rcases List.mem_cons.mp hx with rfl | hx
          · have hhr : h.length ≤ (t.foldl pickLonger h).length := by
              nth_rewrite 1 [hh]; exact ha
            omega
          · exact hle x (List.mem_cons_of_mem a hx)
    case neg =>
      have hpick : pickLonger h b = b := if_neg hc
      rw [hpick] at heq hle hlt ⊢
      refine ⟨h :: l₁, l₂, ?_, ?_, hlt⟩
      · exact congrArg (fun l => h :: l) heq
      · intro x hx
        rcases List.mem_cons.mp hx with rfl | hx
        · have hb : b.length ≤ (t.foldl pickLonger b).length := by
            cases l₁ with
            | nil =>
              injection heq with hh ht
              nth_rewrite 1 [hh]
              exact le_refl _
            | cons a l₁' =>
              injection heq with hh ht
              nth_rewrite 1 [hh]
              exact hle a (List.mem_cons_self a l₁')
          omega
        · exact hle x hx

lemma dbTruthy_mem {k : List Char} (h : dbTruthy k = true) : k ∈ dbKeys := by
  unfold dbTruthy at h
  cases hl : dbLookup k with
  | none => rw [hl] at h; simp at h
  | some v =>
    unfold dbLookup at hl
    obtain ⟨e, hfind, hsnd⟩ := Option.map_eq_some'.mp hl
    have hmem := List.mem_of_find?_eq_some hfind
    have hp := List.find?_some hfind
    have hke : e.1 = k := by simpa using hp
    exact hke ▸ List.mem_map_of_mem Prod.fst hmem

lemma partialMatches_subset (n : List Char) : partialMatches n ⊆ dbKeys := by
  intro x hx
  exact (List.mem_filter.mp hx).1

lemma findBest_key_mem (s : List Char) :
    (findBestIngredientMatch s).key ∈ dbKeys := by
  simp only [findBestIngredientMatch]
  by_cases h : dbTruthy (normalizeIngredientName s)
  · rw [if_pos h]; exact dbTruthy_mem h
  · rw [if_neg h]
    cases hp : partialMatches (normalizeIngredientName s) with
    | nil =>
      show "unknown".toList ∈ dbKeys
      decide
    | cons hd tl =>
      show tl.foldl pickLonger hd ∈ dbKeys
      obtain ⟨l₁, l₂, hsplit, -, -⟩ := foldl_pick_spec hd tl
      have hmem : tl.foldl pickLonger hd ∈ hd :: tl := by
        rw [hsplit]
        exact List.mem_append_right _ (List.mem_cons_self _ _)
      exact (hp ▸ partialMatches_subset (normalizeIngredientName s)) hmem

lemma db_values_round2_fixed :
    ∀ v ∈ CARBON_FOOTPRINT_DB.map Prod.snd, round2 v = v := by
  intro v hv
  fin_cases hv <;> with_unfolding_all rfl

lemma dbGet_mem_values {k : List Char} (hk : k ∈ dbKeys) :
    dbGet k ∈ CARBON_FOOTPRINT_DB.map Prod.snd := by
  obtain ⟨e, he, hek⟩ := List.mem_map.mp hk
  have hs : (CARBON_FOOTPRINT_DB.find? fun x => x.1 = k).isSome := by
    rw [List.find?_isSome]
    exact ⟨e, he, by simpa using hek⟩
  obtain ⟨e', hfind⟩ := Option.isSome_iff_exists.mp hs
  have he'mem := List.mem_of_find?_eq_some hfind
  have hget : dbGet k = e'.2 := by
    unfold dbGet dbLookup
    rw [hfind]
    rfl
  rw [hget]
  exact List.mem_map_of_mem Prod.snd he'mem


/-! ## Claim theorems -/

/-- C1: for every dish name, ingredient list (including the empty list) and
source, `calculateCarbonFootprint` returns
`estimated_carbon_kg = round2 (sum of the per-ingredient carbon values, each
already rounded to 2 decimals)`; the empty list yields `0` and an empty
ingredients sequence, and the function is total by construction. -/
theorem aggregator_sum_invariant (dishName : List Char)
    (ingredients : List RawIngredient) (source : Source) :
    (calculateCarbonFootprint dishName ingredients source).estimated_carbon_kg
      = round2 ((ingredients.map (fun i =>
          round2 (dbGet (findBestIngredientMatch
            (normalizeIngredientName i.name)).key))).sum)
    ∧ (calculateCarbonFootprint dishName [] source).estimated_carbon_kg = 0
    ∧ (calculateCarbonFootprint dishName [] source).ingredients = [] := by
  refine ⟨?_, ?_, rfl⟩
  · show round2 ((ingredients.map processIngredient).foldl
        (fun sum i => sum + i.carbon_kg) 0) = _
    rw [foldl_add_carbon, zero_add, List.map_map]
    rfl
  · show round2 (([] : List ResolvedIngredient).foldl
        (fun sum i => sum + i.carbon_kg) 0) = 0
    exact round2_zero

/-- C3, counterexample: the source uses `ingredient.confidence || 0.8`, so a
supplied confidence of `0` is falsy and selects the default `0.8`; the
resolved confidence for `beef` with raw confidence `0` is `0.8`, not `0` as
the claim's `?? 0.8` reading would give. -/
theorem confidence_blend_counterexample :
    (processIngredient ⟨"beef".toList, some 0⟩).confidence = 0.8
    ∧ (0.8 : ℚ) ≠ 0 :=
  ⟨by with_unfolding_all rfl, by norm_num⟩

/-- C3, amended: for an ingredient whose normalized name matches a database
entry other than the fallback, the resolved confidence before rounding is
`match.confidence * (raw.confidence || 0.8)` where `||` treats both an absent
and a zero raw confidence as selecting the default `0.8`; in particular a
raw confidence of zero blends to `match.confidence * 0.8`. -/
theorem confidence_blend_amended (name : List Char) (conf : Option ℚ)
    (_hmatch : (findBestIngredientMatch (normalizeIngredientName name)).confidence ≠ 0.3) :
    (processIngredient ⟨name, conf⟩).confidence
      = round2 ((findBestIngredientMatch (normalizeIngredientName name)).confidence *
          (match conf with
           | some c => if c = 0 then 0.8 else c
           | none => 0.8))
    ∧ (processIngredient ⟨name, some 0⟩).confidence
      = round2 ((findBestIngredientMatch (normalizeIngredientName name)).confidence * 0.8) := by
  constructor
  · rfl
  · show round2 (_ * jsOrDefault (some 0) 0.8) = _
    norm_num [jsOrDefault]

/-- Witness for C3's amended theorem at `beef` with raw confidence `9/10`. -/
theorem confidence_blend_witness :
    (processIngredient ⟨"beef".toList, some (9/10)⟩).confidence
      = round2 ((findBestIngredientMatch (normalizeIngredientName "beef".toList)).confidence *
          (match (some (9/10 : ℚ)) with
           | some c => if c = 0 then 0.8 else c
           | none => 0.8)) :=
  (confidence_blend_amended "beef".toList (some (9/10)) (by
    rw [show (findBestIngredientMatch (normalizeIngredientName "beef".toList)).confidence = 1
      from by with_unfolding_all rfl]
    norm_num)).1

/-- C6: a canonical key that equals a database key exactly is returned with
confidence exactly `1.0` (the exact-match branch precedes the substring
rule). -/
theorem exact_match_priority (k : List Char) (hk : k ∈ dbKeys) :
    findBestIngredientMatch k = ⟨k, 1⟩ := by
  have h := List.all_eq_true.mp (by with_unfolding_all rfl :
    (dbKeys.all fun k => decide (findBestIngredientMatch k = ⟨k, 1⟩)) = true) k hk
  exact of_decide_eq_true h

/-- Witness for C6 at the key `beef`. -/
theorem exact_match_priority_witness :
    "beef".toList ∈ dbKeys
    ∧ findBestIngredientMatch "beef".toList = ⟨"beef".toList, 1⟩ :=
  ⟨by decide, exact_match_priority "beef".toList (by decide)⟩

/-- C9: every resolved ingredient's `carbon_kg` is one of the literal values
stored in `CARBON_FOOTPRINT_DB` (rounding to two decimals fixes every table
value), so the total is a sum of table lookups. -/
theorem resolved_carbon_from_table (dishName : List Char)
    (ingredients : List RawIngredient) (source : Source)
    (r : ResolvedIngredient)
    (hr : r ∈ (calculateCarbonFootprint dishName ingredients source).ingredients) :
    r.carbon_kg ∈ CARBON_FOOTPRINT_DB.map Prod.snd := by
  have hr' : r ∈ ingredients.map processIngredient := hr
  obtain ⟨ing, -, rfl⟩ := List.mem_map.mp hr'
  show round2 (dbGet (findBestIngredientMatch
    (normalizeIngredientName ing.name)).key) ∈ _
  have hv := dbGet_mem_values (findBest_key_mem (normalizeIngredientName ing.name))
  rw [db_values_round2_fixed _ hv]
  exact hv

/-- Witness for C9: the resolved `beef` line item carries the table's beef
value. -/
theorem resolved_carbon_from_table_witness :
    ((⟨"beef".toList, 60.0, 0.8⟩ : ResolvedIngredient).carbon_kg
      ∈ CARBON_FOOTPRINT_DB.map Prod.snd) :=
  resolved_carbon_from_table "dish".toList [⟨"beef".toList, none⟩] Source.text _ (by
    rw [show (calculateCarbonFootprint "dish".toList [⟨"beef".toList, none⟩]
          Source.text).ingredients = [⟨"beef".toList, 60.0, 0.8⟩]
      from by with_unfolding_all rfl]
    exact List.mem_singleton_self _)

/-- C10: a raw name whose normalization is empty does not fall back to
`unknown`: the empty string is a substring of every database key, so every
key matches and the longest, `vegetable oil`, is returned with confidence
`0.8`; the resolved carbon value is the table's vegetable-oil entry `3.2`. -/
theorem empty_normalization_matches_vegetable_oil (name : List Char)
    (conf : Option ℚ) (h : normalizeIngredientName name = []) :
    findBestIngredientMatch name = ⟨"vegetable oil".toList, 0.8⟩
    ∧ (processIngredient ⟨name, conf⟩).carbon_kg = 3.2 := by
  have hfb : findBestIngredientMatch name = ⟨"vegetable oil".toList, 0.8⟩ := by
    simp only [findBestIngredientMatch]
    rw [h]
    with_unfolding_all rfl
  refine ⟨hfb, ?_⟩
  show round2 (dbGet (findBestIngredientMatch
    (normalizeIngredientName name)).key) = 3.2
  rw [h, show findBestIngredientMatch [] = ⟨"vegetable oil".toList, 0.8⟩
    from by with_unfolding_all rfl]
  with_unfolding_all rfl

/-- Witness for C10 at the qualifier-only name `fresh`. -/
theorem empty_normalization_witness :
    normalizeIngredientName "fresh".toList = []
    ∧ findBestIngredientMatch "fresh".toList = ⟨"vegetable oil".toList, 0.8⟩
    ∧ (processIngredient ⟨"fresh".toList, none⟩).carbon_kg = 3.2 :=
  ⟨by decide,
   (empty_normalization_matches_vegetable_oil "fresh".toList none (by decide)).1,
   (empty_normalization_matches_vegetable_oil "fresh".toList none (by decide)).2⟩


/-- C2, counterexample: a file declared `image/jpg` whose buffer begins with
the JPEG signature `FF D8 FF` and passes every earlier check is still
rejected at the signature step, because `imageHeaders` has no entry for
`image/jpg`. -/
theorem jpg_signature_counterexample :
    validateImageUpload 10 (some ⟨[0xFF, 0xD8, 0xFF] ++ List.replicate 97 0,
      "image/jpg", 100, some "food.jpg".toList⟩) = some FileReason.headerMismatch
    ∧ (([0xFF, 0xD8, 0xFF] ++ List.replicate 97 0 : List Nat)).take 3
        = [0xFF, 0xD8, 0xFF] := by
  exact ⟨by decide, by decide⟩

lemma no_jpg_header (buffer : List Nat) :
    isValidHeader "image/jpg" buffer = false := by
  simp only [isValidHeader, imageHeaders, List.any_cons, List.any_nil]
  rw [show (decide ("image/jpeg" = "image/jpg")) = false from by decide,
    show (decide ("image/png" = "image/jpg")) = false from by decide,
    show (decide ("image/webp" = "image/jpg")) = false from by decide]
  simp

/-- C2, amended: for a file passing the presence, MIME-allowlist, size,
non-empty-buffer, filename, and minimum-length checks, `validateImageUpload`
accepts iff the declared MIME type has an entry in `imageHeaders`
(`image/jpeg` → `FF D8 FF`, `image/png` → `89 50 4E 47`, `image/webp` →
`52 49 46 46`) whose bytes prefix the buffer; a file declared `image/jpg`
passes the allowlist but is always rejected at the signature step. -/
theorem file_signature_verification (maxMB : Nat) (f : UploadedFile)
    (h1 : allowedTypes.contains f.mimetype = true)
    (h2 : f.size ≤ maxMB * 1024 * 1024)
    (h3 : filenameTooLong f.originalname = false)
    (h4 : filenameSuspicious f.originalname = false)
    (h5 : 100 ≤ f.buffer.length) :
    (validateImageUpload maxMB (some f) = none
      ↔ isValidHeader f.mimetype f.buffer = true)
    ∧ (f.mimetype = "image/jpg"
        → validateImageUpload maxMB (some f) = some FileReason.headerMismatch) := by
  have hne : f.buffer.isEmpty = false := by
    cases hb : f.buffer with
    | nil => rw [hb] at h5; simp at h5
    | cons a l => rfl
  have hcore : validateImageUpload maxMB (some f)
      = if !isValidHeader f.mimetype f.buffer then some FileReason.headerMismatch
        else none := by
    simp only [validateImageUpload, h1, h3, h4, hne, Bool.not_true,
      Bool.false_eq_true, if_false, Nat.not_lt.mpr h2, Nat.not_lt.mpr h5,
      if_neg (Nat.not_lt.mpr h2), if_neg (Nat.not_lt.mpr h5)]
  constructor
  · rw [hcore]
    cases hv : isValidHeader f.mimetype f.buffer <;> simp
  · intro hm
    rw [hcore, hm, no_jpg_header]
    rfl

/-- Witness for C2's amended theorem: a well-formed PNG upload is accepted. -/
theorem file_signature_verification_witness :
    validateImageUpload 10 (some ⟨[0x89, 0x50, 0x4E, 0x47] ++ List.replicate 96 0,
      "image/png", 100, none⟩) = none :=
  (file_signature_verification 10
    ⟨[0x89, 0x50, 0x4E, 0x47] ++ List.replicate 96 0, "image/png", 100, none⟩
    (by decide) (by decide) (by decide) (by decide) (by decide)).1.mpr (by decide)


/-- C5, counterexample: for the canonical key `beef lamb` (not itself a
database key), both `beef` and `lamb` match with the same maximal length 4,
yet the matcher returns `lamb`, the one encountered *last* in table
iteration order — the `reduce` step `a.length > b.length ? a : b` keeps the
later element on ties. -/
theorem substring_tie_counterexample :
    normalizeIngredientName "beef lamb".toList = "beef lamb".toList
    ∧ dbTruthy "beef lamb".toList = false
    ∧ partialMatches "beef lamb".toList = ["beef".toList, "lamb".toList]
    ∧ "beef".toList.length = "lamb".toList.length
    ∧ "beef".toList ≠ "lamb".toList
    ∧ findBestIngredientMatch "beef lamb".toList = ⟨"lamb".toList, 0.8⟩ :=
  ⟨by decide, by decide, by decide, by decide, by decide,
   by with_unfolding_all rfl⟩

/-- C5, amended: for every canonical key that is not itself truthy in the
database but has at least one substring match, the matcher returns a longest
matching key with confidence `0.8`, and when several matching keys share the
maximal length it returns the one encountered *last* in table iteration
order (every earlier match is no longer, every later match is strictly
shorter). -/
theorem substring_match_longest (k : List Char)
    (hcanon : normalizeIngredientName k = k)
    (hmiss : dbTruthy k = false)
    (hne : partialMatches k ≠ []) :
    (findBestIngredientMatch k).confidence = 0.8
    ∧ (findBestIngredientMatch k).key ∈ partialMatches k
    ∧ (∀ K ∈ partialMatches k, K.length ≤ (findBestIngredientMatch k).key.length)
    ∧ ∃ l₁ l₂, partialMatches k = l₁ ++ (findBestIngredientMatch k).key :: l₂
        ∧ (∀ K ∈ l₁, K.length ≤ (findBestIngredientMatch k).key.length)
        ∧ (∀ K ∈ l₂, K.length < (findBestIngredientMatch k).key.length) := by
  cases hp : partialMatches k with
  | nil => exact absurd hp hne
  | cons hd tl =>
    have hfb : findBestIngredientMatch k = ⟨tl.foldl pickLonger hd, 0.8⟩ := by
      simp only [findBestIngredientMatch]
      rw [hcanon, hmiss]
      simp only [Bool.false_eq_true, if_false, hp]
      rfl
    obtain ⟨l₁, l₂, hsplit, hle, hlt⟩ := foldl_pick_spec hd tl
    rw [hfb]
    refine ⟨rfl, ?_, ?_, l₁, l₂, ?_, hle, hlt⟩
    · rw [hsplit]
      exact List.mem_append_right _ (List.mem_cons_self _ _)
    · intro K hK
      rw [hsplit] at hK
      rcases List.mem_append.mp hK with hK | hK
      · exact hle K hK
      · rcases List.mem_cons.mp hK with rfl | hK
        · exact le_refl _
        · exact le_of_lt (hlt K hK)
    · exact hsplit

/-- Witness for C5's amended theorem at the canonical key `beef lamb`. -/
theorem substring_match_longest_witness :
    (findBestIngredientMatch "beef lamb".toList).confidence = 0.8 :=
  (substring_match_longest "beef lamb".toList (by decide) (by decide)
    (by decide)).1

/-- C8, counterexample: `validateText({dish: "<script>alert(1)</script>"})`
rejects with the invalid-characters reason, not the malicious-content
reason: the allowlist pattern runs before the custom malicious scan and
`<`, `>`, `/` are outside the allowlist. -/
theorem script_tag_counterexample :
    validateTextBody "<script>alert(1)</script>".toList
      = some TextReason.invalidChars
    ∧ TextReason.invalidChars ≠ TextReason.malicious := by
  exact ⟨by decide, by decide⟩

/-- C8, amended: the scripted payload is rejected, with the
invalid-characters reason; the malicious-content scan would also have
flagged it had the pattern check not fired first. -/
theorem script_tag_rejection_reason :
    validateTextBody "<script>alert(1)</script>".toList
      = some TextReason.invalidChars
    ∧ maliciousCheck "<script>alert(1)</script>".toList = true := by
  exact ⟨by decide, by decide⟩


lemma jsonEscLen_le (c : Char) : jsonEscLen c ≤ 6 := by
  unfold jsonEscLen utf16Len
  repeat' split
  all_goals omega

lemma jsonBodyLen_le (s : List Char) : jsonBodyLen s ≤ 11 + 6 * s.length := by
  unfold jsonBodyLen
  have h : (s.map jsonEscLen).sum ≤ 6 * s.length := by
    induction s with
    | nil => simp
    | cons c cs ih =>
      simp only [List.map_cons, List.sum_cons, List.length_cons]
      have := jsonEscLen_le c
      omega
  omega

lemma validateDish_accepts_iff (s : List Char)
    (hp : allowPattern s = true) (hm : maliciousCheck s = false)
    (hr : hasRepeatedRun s = false) :
    validateDish s = none ↔ (s.length ≤ 200 ∧ trimWs s ≠ []) := by
  unfold validateDish
  split_ifs with h1 h2 h3 h4 h5 h6 h7
  · have hs : s = [] := by simpa using h1
    simp [hs, trimWs]
  · have hs : s ≠ [] := by simpa using h1
    have := List.length_pos.mpr hs
    omega
  · simp only [false_iff, not_and]
    intro hl
    omega
  · rw [hp] at h4
    simp at h4
  · have ht : trimWs s = [] := by simpa using h5
    simp [ht]
  · rw [hm] at h6
    simp at h6
  · rw [hr] at h7
    simp at h7
  · have ht : trimWs s ≠ [] := by simpa using h5
    simp only [true_iff]
    exact ⟨by omega, ht⟩

/-- The 201-character dish name `chicchic…chic␣`: raw length 201, trimmed
length 200, all characters in the allowlist, no malicious pattern, no long
repeated-character run. -/
def longDish : List Char := (List.replicate 50 "chic".toList).flatten ++ [' ']

set_option maxRecDepth 100000 in
/-- C7, counterexample: a dish string of raw length 201 whose trimmed length
is 200 passes the allowlist, malicious-pattern and repeated-character
checks, yet is rejected with the `string.max` reason: Joi's `max(200)`
applies to the raw, untrimmed length. -/
theorem dish_trimmed_length_counterexample :
    allowPattern longDish = true
    ∧ maliciousCheck longDish = false
    ∧ hasRepeatedRun longDish = false
    ∧ longDish.length = 201
    ∧ (trimWs longDish).length = 200
    ∧ validateTextBody longDish = some TextReason.tooLong :=
  ⟨by decide, by decide, by decide, by decide, by decide, by decide⟩

/-- C7, amended: for a body `{dish: s}` with `s` passing the
character-allowlist, malicious-pattern and repeated-character checks, the
text validator accepts iff the *raw* length of `s` is at most 200 (the
allowlist already forces it to be at least 1) and the trimmed string is
nonempty; a raw length above 200 is rejected even when the trimmed length
is at most 200. -/
theorem dish_length_validation (s : List Char)
    (hp : allowPattern s = true) (hm : maliciousCheck s = false)
    (hr : hasRepeatedRun s = false) :
    validateTextBody s = none ↔ (s.length ≤ 200 ∧ trimWs s ≠ []) := by
  unfold validateTextBody
  by_cases hb : 10000 < jsonBodyLen s
  · rw [if_pos hb]
    constructor
    · intro h; simp at h
    · rintro ⟨hlen, -⟩
      have := jsonBodyLen_le s
      omega
  · rw [if_neg hb]
    exact validateDish_accepts_iff s hp hm hr

/-- Witness for C7's amended theorem: `pasta` is accepted. -/
theorem dish_length_validation_witness :
    validateTextBody "pasta".toList = none :=
  (dish_length_validation "pasta".toList (by decide) (by decide)
    (by decide)).mpr ⟨by decide, by decide⟩


/-! ## Token structure of the normalizer (infrastructure for C4)

After stripping and whitespace collapsing, a string consists of lowercase
alphanumeric "token" characters and single spaces.  The qualifier-word
replace and the final trim act on the space-separated token decomposition,
which the following development makes precise. -/

/-- A character that can appear inside a token after stripping: `[a-z0-9]`. -/
def isTokenChar (c : Char) : Bool :=
  ('a' ≤ c && c ≤ 'z') || ('0' ≤ c && c ≤ '9')

/-- A character of a stripped-and-collapsed string: token character or space. -/
def charOk (c : Char) : Bool := isTokenChar c || c = ' '

/-- Split on single spaces (inverse of `joinSpc`). -/
def splitSpc : List Char → List (List Char)
  | [] => [[]]
  | c :: cs =>
    if c = ' ' then [] :: splitSpc cs
    else
      match splitSpc cs with
      | t :: ts => (c :: t) :: ts
      | [] => [[c]]

/-- Join tokens with single spaces. -/
def joinSpc : List (List Char) → List Char
  | [] => []
  | [t] => t
  | t :: ts => t ++ ' ' :: joinSpc ts

/-- Effect of the qualifier replace on one token. -/
def dropQualTok (t : List Char) : List Char :=
  if t ∈ QUALIFIER_WORDS then [] else t

/-- Effect of `dequalAux` on a token decomposition: when the previous
character was a word character, the first token is protected. -/
def applyHead : Bool → List (List Char) → List (List Char)
  | _, [] => []
  | true, t :: ts => t :: ts.map dropQualTok
  | false, t :: ts => dropQualTok t :: ts.map dropQualTok

/-- Drop leading and trailing empty tokens (the token image of `trimWs`). -/
def trimEmpties (ts : List (List Char)) : List (List Char) :=
  ((ts.dropWhile (· = [])).reverse.dropWhile (· = [])).reverse

lemma splitSpc_ne_nil (s : List Char) : splitSpc s ≠ [] := by
  cases s with
  | nil => simp [splitSpc]
  | cons c cs =>
    unfold splitSpc
    split
    · simp
    · split <;> simp

lemma joinSpc_cons (t : List Char) (ts : List (List Char)) (h : ts ≠ []) :
    joinSpc (t :: ts) = t ++ ' ' :: joinSpc ts := by
  cases ts with
  | nil => exact absurd rfl h
  | cons u us => rfl

lemma joinSpc_splitSpc (s : List Char) : joinSpc (splitSpc s) = s := by
  induction s with
  | nil => rfl
  | cons c cs ih =>
    unfold splitSpc
    by_cases hc : c = ' '
    · rw [if_pos hc, joinSpc_cons _ _ (splitSpc_ne_nil cs), ih, hc]
      rfl
    · rw [if_neg hc]
      cases hs : splitSpc cs with
      | nil => exact absurd hs (splitSpc_ne_nil cs)
      | cons t ts =>
        cases ts with
        | nil =>
          show c :: t = c :: cs
          have := ih
          rw [hs] at this
          simpa using this
        | cons u us =>
          show (c :: t) ++ ' ' :: joinSpc (u :: us) = c :: cs
          have := ih
          rw [hs, joinSpc_cons _ _ (by simp)] at this
          simpa using this

lemma splitSpc_joinSpc (ts : List (List Char)) (hne : ts ≠ [])
    (h : ∀ t ∈ ts, ' ' ∉ t) : splitSpc (joinSpc ts) = ts := by
  induction ts with
  | nil => exact absurd rfl hne
  | cons t ts ih =>
    cases ts with
    | nil =>
      show splitSpc (joinSpc [t]) = [t]
      have ht : ' ' ∉ t := h t (List.mem_cons_self t [])
      clear h hne ih
      induction t with
      | nil => rfl
      | cons c cs ihc =>
        have hc : c ≠ ' ' := fun hc => ht (hc ▸ List.mem_cons_self c cs)
        show splitSpc (c :: cs) = [c :: cs]
        unfold splitSpc
        rw [if_neg hc]
        have hcs : splitSpc (joinSpc [cs]) = [cs] :=
          ihc (fun hm => ht (List.mem_cons_of_mem c hm))
        have : splitSpc cs = [cs] := hcs
        rw [this]
    | cons u us =>
      rw [joinSpc_cons _ _ (by simp)]
      have ht : ' ' ∉ t := h t (List.mem_cons_self t _)
      have hrest : splitSpc (joinSpc (u :: us)) = u :: us :=
        ih (by simp) (fun x hx => h x (List.mem_cons_of_mem t hx))
      clear h hne ih
      induction t with
      | nil =>
        show splitSpc (' ' :: joinSpc (u :: us)) = [] :: u :: us
        unfold splitSpc
        rw [if_pos rfl, hrest]
      | cons c cs ihc =>
        have hc : c ≠ ' ' := fun hc => ht (hc ▸ List.mem_cons_self c cs)
        show splitSpc (c :: (cs ++ ' ' :: joinSpc (u :: us))) = (c :: cs) :: u :: us
        unfold splitSpc
        rw [if_neg hc]
        have hcs := ihc (fun hm => ht (List.mem_cons_of_mem c hm))
        rw [show splitSpc (cs ++ ' ' :: joinSpc (u :: us)) = cs :: u :: us from hcs]


lemma isTokenChar_wordChar {c : Char} (h : isTokenChar c = true) :
    jsWordChar c = true := by
  simp only [isTokenChar, Bool.or_eq_true, Bool.and_eq_true] at h
  simp only [jsWordChar, Bool.or_eq_true, Bool.and_eq_true]
  tauto

lemma tokenChar_ne_space {c : Char} (h : isTokenChar c = true) : c ≠ ' ' := by
  rintro rfl
  simp only [isTokenChar, Bool.or_eq_true, Bool.and_eq_true,
    decide_eq_true_eq] at h
  rcases h with ⟨h1, -⟩ | ⟨h1, -⟩ <;> exact absurd h1 (by decide)

lemma tokenChar_not_ws {c : Char} (h : isTokenChar c = true) :
    isJsWs c = false := by
  simp only [isTokenChar, Bool.or_eq_true, Bool.and_eq_true,
    decide_eq_true_eq] at h
  rw [Bool.eq_false_iff]
  intro hw
  simp only [isJsWs, Bool.or_eq_true, Bool.and_eq_true, decide_eq_true_eq] at hw
  rcases h with ⟨h1, h2⟩ | ⟨h1, h2⟩ <;>
    rw [Char.le_def] at h1 h2 <;>
    [(have a1 : 97 ≤ c.toNat := h1; have a2 : c.toNat ≤ 122 := h2);
     (have a1 : 48 ≤ c.toNat := h1; have a2 : c.toNat ≤ 57 := h2)] <;>
    omega

lemma charOk_space_iff {c : Char} (h : charOk c = true) :
    isJsWs c = true ↔ c = ' ' := by
  constructor
  · intro hw
    simp only [charOk, Bool.or_eq_true, decide_eq_true_eq] at h
    rcases h with h | h
    · rw [tokenChar_not_ws h] at hw; exact absurd hw (by simp)
    · exact h
  · rintro rfl; decide

lemma charOk_toLower {c : Char} (h : charOk c = true) : asciiToLower c = c := by
  have hn : ¬('A' ≤ c ∧ c ≤ 'Z') := by
    rintro ⟨h1, h2⟩
    rw [Char.le_def] at h1 h2
    have b1 : 65 ≤ c.toNat := h1
    have b2 : c.toNat ≤ 90 := h2
    simp only [charOk, isTokenChar, Bool.or_eq_true, Bool.and_eq_true,
      decide_eq_true_eq] at h
    rcases h with (⟨g1, g2⟩ | ⟨g1, g2⟩) | g
    · rw [Char.le_def] at g1 g2
      have a1 : 97 ≤ c.toNat := g1
      omega
    · rw [Char.le_def] at g1 g2
      have a2 : c.toNat ≤ 57 := g2
      omega
    · subst g; exact absurd b1 (by decide)
  unfold asciiToLower
  rw [if_neg hn]

lemma charOk_keepChar {c : Char} (h : charOk c = true) : keepChar c = true := by
  simp only [charOk, isTokenChar, Bool.or_eq_true, Bool.and_eq_true] at h
  simp only [keepChar, Bool.or_eq_true, Bool.and_eq_true]
  rcases h with (h | h) | h
  · exact Or.inl (Or.inl h)
  · exact Or.inl (Or.inr h)
  · right
    have : c = ' ' := by simpa using h
    subst this
    decide

lemma keep_not_ws_tokenChar {c : Char} (hk : keepChar c = true)
    (hw : isJsWs c = false) : isTokenChar c = true := by
  simp only [keepChar, Bool.or_eq_true] at hk
  simp only [isTokenChar, Bool.or_eq_true]
  rcases hk with (h | h) | h
  · exact Or.inl h
  · exact Or.inr h
  · rw [hw] at h; exact absurd h (by simp)

lemma mem_collapseAux {c : Char} :
    ∀ (b : Bool) (s : List Char), c ∈ collapseAux b s
      → c = ' ' ∨ (c ∈ s ∧ isJsWs c = false) := by
  intro b s
  induction s generalizing b with
  | nil => simp [collapseAux]
  | cons a l ih =>
    intro hc
    unfold collapseAux at hc
    by_cases ha : isJsWs a
    · rw [if_pos ha] at hc
      cases b with
      | true =>
        rcases ih true hc with h | ⟨h1, h2⟩
        · exact Or.inl h
        · exact Or.inr ⟨List.mem_cons_of_mem a h1, h2⟩
      | false =>
        rcases List.mem_cons.mp hc with rfl | hc
        · exact Or.inl rfl
        · rcases ih true hc with h | ⟨h1, h2⟩
          · exact Or.inl h
          · exact Or.inr ⟨List.mem_cons_of_mem a h1, h2⟩
    · rw [if_neg ha] at hc
      rcases List.mem_cons.mp hc with rfl | hc
      · exact Or.inr ⟨List.mem_cons_self _ _, by simpa using ha⟩
      · rcases ih false hc with h | ⟨h1, h2⟩
        · exact Or.inl h
        · exact Or.inr ⟨List.mem_cons_of_mem a h1, h2⟩


lemma dropPrefixQ_append : ∀ (q s r : List Char),
    dropPrefixQ q s = some r → s = q ++ r := by
  intro q
  induction q with
  | nil =>
    intro s r h
    simp only [dropPrefixQ, Option.some.injEq] at h
    simp [h]
  | cons p ps ih =>
    intro s r h
    cases s with
    | nil => simp [dropPrefixQ] at h
    | cons c cs =>
      unfold dropPrefixQ at h
      by_cases hpc : p = c
      · rw [if_pos hpc] at h
        rw [List.cons_append, ← ih cs r h, hpc]
      · rw [if_neg hpc] at h
        exact absurd h (by simp)

lemma dropPrefixQ_of_append (q r : List Char) :
    dropPrefixQ q (q ++ r) = some r := by
  induction q with
  | nil => simp [dropPrefixQ]
  | cons p ps ih => simp [dropPrefixQ, ih]

lemma matchQual_some {s r : List Char} (h : matchQual s = some r) :
    ∃ q ∈ QUALIFIER_WORDS, s = q ++ r ∧ boundaryOk r = true := by
  obtain ⟨q, hq, hf⟩ := List.exists_of_findSome?_eq_some h
  refine ⟨q, hq, ?_⟩
  cases hd : dropPrefixQ q s with
  | none => simp [hd] at hf
  | some r' =>
    simp only [hd] at hf
    by_cases hb : boundaryOk r'
    · rw [if_pos hb] at hf
      have : r' = r := by simpa using hf
      subst this
      exact ⟨dropPrefixQ_append q s r' hd, hb⟩
    · rw [if_neg hb] at hf
      exact absurd hf (by simp)

lemma matchQual_of_qual {q r : List Char} (hq : q ∈ QUALIFIER_WORDS)
    (hb : boundaryOk r = true) : matchQual (q ++ r) ≠ none := by
  intro h
  have hall := List.findSome?_eq_none_iff.mp h q hq
  simp only [dropPrefixQ_of_append q r] at hall
  rw [hb] at hall
  simp at hall

lemma matchQual_space (cs : List Char) : matchQual (' ' :: cs) = none := by
  simp [matchQual, QUALIFIER_WORDS, List.findSome?_cons, dropPrefixQ]

lemma matchQual_suffix {s r : List Char} (h : matchQual s = some r) : r <:+ s := by
  obtain ⟨q, -, heq, -⟩ := matchQual_some h
  exact ⟨q, heq.symm⟩

lemma qual_words_ne_nil : ∀ q ∈ QUALIFIER_WORDS, q ≠ [] := by decide

lemma qual_words_no_space : ∀ q ∈ QUALIFIER_WORDS, ' ' ∉ q := by decide

lemma dequalAux_nil (fuel : Nat) (b : Bool) : dequalAux fuel b [] = [] := by
  cases fuel <;> rfl

lemma mem_dequalAux {c : Char} :
    ∀ (fuel : Nat) (b : Bool) (s : List Char), c ∈ dequalAux fuel b s → c ∈ s := by
  intro fuel
  induction fuel with
  | zero => intro b s h; exact h
  | succ fuel ih =>
    intro b s h
    cases s with
    | nil => simp [dequalAux_nil] at h
    | cons a l =>
      unfold dequalAux at h
      cases b with
      | true =>
        rw [if_pos rfl] at h
        rcases List.mem_cons.mp h with rfl | h
        · exact List.mem_cons_self _ _
        · exact List.mem_cons_of_mem a (ih _ l h)
      | false =>
        rw [if_neg (by simp)] at h
        cases hm : matchQual (a :: l) with
        | some rest =>
          rw [hm] at h
          exact (matchQual_suffix hm).subset (ih _ rest h)
        | none =>
          rw [hm] at h
          rcases List.mem_cons.mp h with rfl | h
          · exact List.mem_cons_self _ _
          · exact List.mem_cons_of_mem a (ih _ l h)

lemma mem_trimWs {c : Char} {s : List Char} (h : c ∈ trimWs s) : c ∈ s := by
  unfold trimWs at h
  rw [List.mem_reverse] at h
  have h1 := (List.dropWhile_suffix isJsWs).subset h
  rw [List.mem_reverse] at h1
  exact (List.dropWhile_suffix isJsWs).subset h1

lemma normalize_chars {x : List Char} :
    ∀ c ∈ normalizeIngredientName x, charOk c = true := by
  intro c hc
  unfold normalizeIngredientName removeQualifierWords at hc
  have h1 := mem_trimWs hc
  have h2 := mem_dequalAux _ _ _ h1
  rcases mem_collapseAux false _ h2 with h | ⟨h3, hw⟩
  · simp [charOk, h]
  · have hk := List.of_mem_filter h3
    simp [charOk, keep_not_ws_tokenChar hk hw]


lemma splitSpc_space_cons (l : List Char) :
    splitSpc (' ' :: l) = [] :: splitSpc l := rfl

lemma splitSpc_tok_cons {c : Char} {l t : List Char} {ts : List (List Char)}
    (hc : c ≠ ' ') (h : splitSpc l = t :: ts) :
    splitSpc (c :: l) = (c :: t) :: ts := by
  rw [show splitSpc (c :: l) = if c = ' ' then [] :: splitSpc l else
      (match splitSpc l with | t :: ts => (c :: t) :: ts | [] => [[c]]) from rfl,
    if_neg hc, h]

lemma splitSpc_single {t : List Char} (h : ' ' ∉ t) : splitSpc t = [t] := by
  induction t with
  | nil => rfl
  | cons c cs ih =>
    have hc : c ≠ ' ' := fun hc => h (hc ▸ List.mem_cons_self c cs)
    unfold splitSpc
    rw [if_neg hc, ih (fun hm => h (List.mem_cons_of_mem c hm))]

lemma splitSpc_append_space {q : List Char} (r : List Char) (h : ' ' ∉ q) :
    splitSpc (q ++ ' ' :: r) = q :: splitSpc r := by
  induction q with
  | nil =>
    show splitSpc (' ' :: r) = [] :: splitSpc r
    simp [splitSpc]
  | cons c cs ih =>
    have hc : c ≠ ' ' := fun hc => h (hc ▸ List.mem_cons_self c cs)
    show splitSpc (c :: (cs ++ ' ' :: r)) = (c :: cs) :: splitSpc r
    simp only [splitSpc]
    rw [if_neg hc, ih (fun hm => h (List.mem_cons_of_mem c hm))]

lemma splitSpc_tokens_chars : ∀ (s : List Char),
    (∀ c ∈ s, charOk c = true) → ∀ t ∈ splitSpc s, ∀ c ∈ t, isTokenChar c = true := by
  intro s
  induction s with
  | nil =>
    intro _ t ht
    simp only [splitSpc, List.mem_singleton] at ht
    simp [ht]
  | cons a l ih =>
    intro hok t ht
    have hoka := hok a (List.mem_cons_self a l)
    have hokl : ∀ c ∈ l, charOk c = true := fun c h => hok c (List.mem_cons_of_mem a h)
    by_cases ha : a = ' '
    · subst ha
      rw [splitSpc_space_cons] at ht
      rcases List.mem_cons.mp ht with rfl | ht
      · simp
      · exact ih hokl t ht
    · have hatok : isTokenChar a = true := by
        simp only [charOk, Bool.or_eq_true, decide_eq_true_eq] at hoka
        tauto
      cases hsl : splitSpc l with
      | nil => exact absurd hsl (splitSpc_ne_nil l)
      | cons t0 ts =>
        rw [splitSpc_tok_cons ha hsl] at ht
        rcases List.mem_cons.mp ht with rfl | ht
        · intro c hc
          rcases List.mem_cons.mp hc with rfl | hc
          · exact hatok
          · exact ih hokl t0 (hsl ▸ List.mem_cons_self t0 ts) c hc
        · exact ih hokl t (hsl ▸ List.mem_cons_of_mem t0 ht)

lemma token_no_space {t : List Char} (h : ∀ c ∈ t, isTokenChar c = true) :
    ' ' ∉ t := fun hm => tokenChar_ne_space (h ' ' hm) rfl

lemma joinSpc_chars : ∀ (ts : List (List Char)),
    (∀ t ∈ ts, ∀ c ∈ t, isTokenChar c = true) → ∀ c ∈ joinSpc ts, charOk c = true := by
  intro ts
  induction ts with
  | nil => intro _ c hc; simp [joinSpc] at hc
  | cons t ts ih =>
    intro h c hc
    cases ts with
    | nil =>
      have : c ∈ t := hc
      simp [charOk, h t (List.mem_cons_self t []) c this]
    | cons u us =>
      rw [joinSpc_cons t (u :: us) (by simp)] at hc
      rcases List.mem_append.mp hc with hc | hc
      · simp [charOk, h t (List.mem_cons_self t _) c hc]
      · rcases List.mem_cons.mp hc with rfl | hc
        · simp [charOk]
        · exact ih (fun v hv => h v (List.mem_cons_of_mem t hv)) c hc

lemma joinSpc_cons_head (c : Char) (t : List Char) (ts : List (List Char)) :
    joinSpc ((c :: t) :: ts) = c :: joinSpc (t :: ts) := by
  cases ts with
  | nil => rfl
  | cons u us => rfl

lemma dropQualTok_nil : dropQualTok [] = [] := by decide

lemma dropQualTok_idem (t : List Char) :
    dropQualTok (dropQualTok t) = dropQualTok t := by
  unfold dropQualTok
  split
  · rw [if_neg (by decide : ([] : List Char) ∉ QUALIFIER_WORDS)]
  · rfl


lemma dequalAux_cons_true (fuel : Nat) (c : Char) (cs : List Char) :
    dequalAux (fuel + 1) true (c :: cs) = c :: dequalAux fuel (jsWordChar c) cs := rfl

lemma dequalAux_cons_false (fuel : Nat) (c : Char) (cs : List Char) :
    dequalAux (fuel + 1) false (c :: cs)
      = match matchQual (c :: cs) with
        | some rest => dequalAux fuel true rest
        | none => c :: dequalAux fuel (jsWordChar c) cs := rfl

lemma dropQualTok_of_qual {q : List Char} (hq : q ∈ QUALIFIER_WORDS) :
    dropQualTok q = [] := by
  unfold dropQualTok
  rw [if_pos hq]

/-- The qualifier-word scanner acts tokenwise on strings over the
stripped-and-collapsed alphabet: starting between words it maps every
qualifier token to the empty token, and starting inside a word it protects
the first token. -/
lemma dequalAux_tokens : ∀ (fuel : Nat) (s : List Char), s.length ≤ fuel →
    (∀ c ∈ s, charOk c = true) →
    (dequalAux fuel false s = joinSpc ((splitSpc s).map dropQualTok))
    ∧ (dequalAux fuel true s = joinSpc (applyHead true (splitSpc s))) := by
  intro fuel
  induction fuel with
  | zero =>
    intro s hs _
    have hnil : s = [] := List.length_eq_zero.mp (Nat.le_zero.mp hs)
    subst hnil
    constructor <;> rfl
  | succ fuel ih =>
    intro s hs hok
    cases s with
    | nil => constructor <;> rfl
    | cons c cs =>
      have hokc := hok c (List.mem_cons_self c cs)
      have hokcs : ∀ c' ∈ cs, charOk c' = true :=
        fun c' h' => hok c' (List.mem_cons_of_mem c h')
      have hlen : cs.length ≤ fuel := by simpa using hs
      by_cases hcsp : c = ' '
      · subst hcsp
        have hmapne : (splitSpc cs).map dropQualTok ≠ [] := by
          simp [splitSpc_ne_nil cs]
        constructor
        · rw [dequalAux_cons_false, matchQual_space,
            show jsWordChar ' ' = false from rfl, (ih cs hlen hokcs).1,
            splitSpc_space_cons, List.map_cons, dropQualTok_nil,
            joinSpc_cons _ _ hmapne]
          rfl
        · rw [dequalAux_cons_true, show jsWordChar ' ' = false from rfl,
            (ih cs hlen hokcs).1, splitSpc_space_cons]
          show _ = joinSpc ([] :: (splitSpc cs).map dropQualTok)
          rw [joinSpc_cons _ _ hmapne]
          rfl
      · have htok : isTokenChar c = true := by
          simp only [charOk, Bool.or_eq_true, decide_eq_true_eq] at hokc
          tauto
        have hword := isTokenChar_wordChar htok
        obtain ⟨t0, ts0, hsl⟩ : ∃ t0 ts0, splitSpc cs = t0 :: ts0 := by
          cases h : splitSpc cs with
          | nil => exact absurd h (splitSpc_ne_nil cs)
          | cons a b => exact ⟨a, b, rfl⟩
        have hsplit_c : splitSpc (c :: cs) = (c :: t0) :: ts0 :=
          splitSpc_tok_cons hcsp hsl
        constructor
        · rw [dequalAux_cons_false]
          cases hm : matchQual (c :: cs) with
          | some rest =>
            obtain ⟨q, hq, heq, hb⟩ := matchQual_some hm
            have hqne : q ≠ [] := qual_words_ne_nil q hq
            have hql : 1 ≤ q.length := by
              cases q with
              | nil => exact absurd rfl hqne
              | cons _ _ => simp
            have hlen2 : cs.length + 1 = q.length + rest.length := by
              have := congrArg List.length heq
              simpa [List.length_append] using this
            have hrlen : rest.length ≤ fuel := by omega
            have hrok : ∀ c' ∈ rest, charOk c' = true := by
              intro c' h'
              apply hok
              rw [heq]
              exact List.mem_append_right q h'
            cases rest with
            | nil =>
              show dequalAux fuel true [] = _
              rw [dequalAux_nil]
              have hcq : c :: cs = q := by simpa using heq
              rw [show splitSpc (c :: cs) = [c :: cs] from
                  splitSpc_single (by rw [hcq]; exact qual_words_no_space q hq),
                List.map_cons, show dropQualTok (c :: cs) = [] from by
                  rw [hcq]; exact dropQualTok_of_qual hq]
              rfl
            | cons r0 rest' =>
              have hr0w : jsWordChar r0 = false := by
                simpa [boundaryOk] using hb
              have hr0ok := hrok r0 (List.mem_cons_self r0 rest')
              have hr0sp : r0 = ' ' := by
                simp only [charOk, Bool.or_eq_true, decide_eq_true_eq] at hr0ok
                rcases hr0ok with h | h
                · rw [isTokenChar_wordChar h] at hr0w
                  exact absurd hr0w (by simp)
                · exact h
              subst hr0sp
              show dequalAux fuel true (' ' :: rest') = _
              rw [(ih (' ' :: rest') hrlen hrok).2, splitSpc_space_cons,
                show splitSpc (c :: cs) = q :: splitSpc rest' from by
                  rw [heq]; exact splitSpc_append_space rest' (qual_words_no_space q hq),
                List.map_cons, dropQualTok_of_qual hq]
              rfl
          | none =>
            show c :: dequalAux fuel (jsWordChar c) cs = _
            rw [hword, (ih cs hlen hokcs).2, hsl, hsplit_c, List.map_cons]
            have hnq : dropQualTok (c :: t0) = c :: t0 := by
              unfold dropQualTok
              rw [if_neg ?hmem]
              case hmem =>
                intro hmem
                have hcs : cs = joinSpc (t0 :: ts0) := by
                  rw [← hsl, joinSpc_splitSpc]
                cases ts0 with
                | nil =>
                  have : c :: cs = (c :: t0) ++ [] := by
                    simp [hcs, joinSpc]
                  exact matchQual_of_qual hmem (by rfl) (this ▸ hm)
                | cons u us =>
                  have : c :: cs = (c :: t0) ++ ' ' :: joinSpc (u :: us) := by
                    rw [hcs, joinSpc_cons t0 (u :: us) (by simp)]
                    rfl
                  exact matchQual_of_qual hmem (by rfl) (this ▸ hm)
            rw [hnq]
            show c :: joinSpc (t0 :: ts0.map dropQualTok)
              = joinSpc ((c :: t0) :: ts0.map dropQualTok)
            rw [joinSpc_cons_head]
        · rw [dequalAux_cons_true, hword, (ih cs hlen hokcs).2, hsl, hsplit_c]
          show c :: joinSpc (t0 :: ts0.map dropQualTok)
            = joinSpc ((c :: t0) :: ts0.map dropQualTok)
          rw [joinSpc_cons_head]


lemma dropWhile_ws_joinSpc : ∀ (ts : List (List Char)),
    (∀ t ∈ ts, ∀ c ∈ t, isTokenChar c = true) →
    (joinSpc ts).dropWhile isJsWs = joinSpc (ts.dropWhile (· = [])) := by
  intro ts
  induction ts with
  | nil => intro _; rfl
  | cons t ts ih =>
    intro h
    have hts : ∀ t' ∈ ts, ∀ c ∈ t', isTokenChar c = true :=
      fun t' h' => h t' (List.mem_cons_of_mem t h')
    cases t with
    | nil =>
      cases ts with
      | nil => rfl
      | cons u us =>
        have h1 : List.dropWhile isJsWs (' ' :: joinSpc (u :: us))
            = List.dropWhile isJsWs (joinSpc (u :: us)) := by
          simp [List.dropWhile_cons, show isJsWs ' ' = true from by decide]
        have h2 : List.dropWhile (fun x => decide (x = [])) (([] : List Char) :: u :: us)
            = List.dropWhile (fun x => decide (x = [])) (u :: us) := by
          simp [List.dropWhile_cons]
        rw [joinSpc_cons [] (u :: us) (by simp), List.nil_append, h1, ih hts]
        exact congrArg joinSpc h2.symm
    | cons c t' =>
      have hct : isTokenChar c = true :=
        h (c :: t') (List.mem_cons_self _ _) c (List.mem_cons_self _ _)
      have h1 : List.dropWhile isJsWs (c :: joinSpc (t' :: ts))
          = c :: joinSpc (t' :: ts) := by
        simp [List.dropWhile_cons, tokenChar_not_ws hct]
      have h2 : List.dropWhile (fun x => decide (x = [])) ((c :: t') :: ts)
          = (c :: t') :: ts := by
        simp [List.dropWhile_cons]
      rw [joinSpc_cons_head, h1, h2, ← joinSpc_cons_head]

lemma joinSpc_append_single (ts : List (List Char)) (u : List Char)
    (h : ts ≠ []) : joinSpc (ts ++ [u]) = joinSpc ts ++ ' ' :: u := by
  induction ts with
  | nil => exact absurd rfl h
  | cons t ts ih =>
    cases ts with
    | nil => rfl
    | cons v vs =>
      rw [List.cons_append, joinSpc_cons t ((v :: vs) ++ [u]) (by simp),
        joinSpc_cons t (v :: vs) (by simp), ih (by simp)]
      simp

lemma joinSpc_reverse : ∀ (ts : List (List Char)),
    (joinSpc ts).reverse = joinSpc ((ts.map List.reverse).reverse) := by
  intro ts
  induction ts with
  | nil => rfl
  | cons t ts ih =>
    cases ts with
    | nil => simp [joinSpc]
    | cons u us =>
      rw [joinSpc_cons t (u :: us) (by simp), List.reverse_append,
        List.reverse_cons, List.map_cons, List.reverse_cons,
        joinSpc_append_single _ t.reverse (by simp), ← ih]
      simp

lemma dropWhile_map_rev (l : List (List Char)) :
    (l.map List.reverse).dropWhile (· = [])
      = (l.dropWhile (· = [])).map List.reverse := by
  induction l with
  | nil => rfl
  | cons t ts ih =>
    by_cases ht : t = []
    · subst ht
      simpa using ih
    · have h1 : List.dropWhile (fun x => decide (x = []))
          (t.reverse :: ts.map List.reverse) = t.reverse :: ts.map List.reverse := by
        simp [List.dropWhile_cons, ht]
      have h2 : List.dropWhile (fun x => decide (x = [])) (t :: ts) = t :: ts := by
        simp [List.dropWhile_cons, ht]
      rw [List.map_cons, h1, h2, List.map_cons]

lemma revmap_dropWhile_revmap (l : List (List Char)) :
    ((((l.map List.reverse).reverse.dropWhile (· = [])).map List.reverse).reverse)
      = (l.reverse.dropWhile (· = [])).reverse := by
  have h0 : (l.map List.reverse).reverse = l.reverse.map List.reverse := by
    simp
  rw [h0, dropWhile_map_rev, List.map_map]
  simp [Function.comp]


lemma trimWs_joinSpc (ts : List (List Char))
    (htok : ∀ t ∈ ts, ∀ c ∈ t, isTokenChar c = true) :
    trimWs (joinSpc ts) = joinSpc (trimEmpties ts) := by
  unfold trimWs trimEmpties
  rw [dropWhile_ws_joinSpc ts htok]
  have htok1 : ∀ t ∈ ts.dropWhile (· = []), ∀ c ∈ t, isTokenChar c = true :=
    fun t ht => htok t ((List.dropWhile_suffix _).subset ht)
  rw [joinSpc_reverse (ts.dropWhile (· = []))]
  have htok2 : ∀ t ∈ ((ts.dropWhile (· = [])).map List.reverse).reverse,
      ∀ c ∈ t, isTokenChar c = true := by
    intro t ht c hc
    rw [List.mem_reverse] at ht
    obtain ⟨t', ht', rfl⟩ := List.mem_map.mp ht
    exact htok1 t' ht' c (List.mem_reverse.mp hc)
  rw [dropWhile_ws_joinSpc _ htok2, joinSpc_reverse _, revmap_dropWhile_revmap]

lemma dropWhile_head_not {α : Type} (p : α → Bool) (l : List α) :
    ∀ a, (l.dropWhile p).head? = some a → p a = false := by
  induction l with
  | nil => intro a h; simp at h
  | cons c cs ih =>
    intro a h
    rw [List.dropWhile_cons] at h
    split at h
    · exact ih a h
    · next hc =>
      have : a = c := by simpa using h.symm
      subst this
      simpa using hc

lemma suffix_getLast? {α : Type} {l1 l2 : List α} (h : l2 <:+ l1)
    (hne : l2 ≠ []) : l2.getLast? = l1.getLast? := by
  obtain ⟨pre, rfl⟩ := h
  induction pre with
  | nil => rfl
  | cons a l ih =>
    rw [List.cons_append, List.getLast?_cons, ih]
    cases hx : (l ++ l2).getLast? with
    | some b => rfl
    | none =>
      rw [List.getLast?_eq_none_iff] at hx
      exact absurd (List.append_eq_nil.mp hx).2 hne

lemma dropWhile_eq_self_of_head {α : Type} (p : α → Bool) (l : List α)
    (h : ∀ a, l.head? = some a → p a = false) : l.dropWhile p = l := by
  cases l with
  | nil => rfl
  | cons c cs =>
    rw [List.dropWhile_cons, if_neg]
    simp [h c rfl]

lemma trimEmpties_idem (ts : List (List Char)) :
    trimEmpties (trimEmpties ts) = trimEmpties ts := by
  unfold trimEmpties
  have hB1 : (((ts.dropWhile (· = [])).reverse.dropWhile (· = [])).reverse).dropWhile (· = [])
      = ((ts.dropWhile (· = [])).reverse.dropWhile (· = [])).reverse := by
    apply dropWhile_eq_self_of_head
    intro a ha
    rw [List.head?_reverse] at ha
    have hne : (ts.dropWhile (· = [])).reverse.dropWhile (· = []) ≠ [] := by
      intro h0; rw [h0] at ha; simp at ha
    rw [suffix_getLast? (List.dropWhile_suffix _) hne, List.getLast?_reverse] at ha
    exact dropWhile_head_not _ _ a ha
  rw [hB1]
  have hB2 : ((((ts.dropWhile (· = [])).reverse.dropWhile (· = [])).reverse).reverse).dropWhile (· = [])
      = (((ts.dropWhile (· = [])).reverse.dropWhile (· = [])).reverse).reverse := by
    apply dropWhile_eq_self_of_head
    intro a ha
    rw [List.head?_reverse, List.getLast?_reverse] at ha
    exact dropWhile_head_not _ _ a ha
  rw [hB2, List.reverse_reverse]

lemma trimEmpties_subset (ts : List (List Char)) {t : List Char}
    (ht : t ∈ trimEmpties ts) : t ∈ ts := by
  unfold trimEmpties at ht
  rw [List.mem_reverse] at ht
  have h1 := (List.dropWhile_suffix _).subset ht
  rw [List.mem_reverse] at h1
  exact (List.dropWhile_suffix _).subset h1

lemma map_fixed {α : Type} (f : α → α) : ∀ (l : List α),
    (∀ a ∈ l, f a = a) → l.map f = l := by
  intro l
  induction l with
  | nil => intro _; rfl
  | cons a l ih =>
    intro h
    rw [List.map_cons, h a (List.mem_cons_self a l),
      ih (fun b hb => h b (List.mem_cons_of_mem a hb))]


lemma collapse_chars_ok (w : List Char) :
    ∀ c ∈ collapseWs (w.filter keepChar), charOk c = true := by
  intro c hc
  rcases mem_collapseAux false _ hc with h | ⟨h1, hw⟩
  · simp [charOk, h]
  · simp [charOk, keep_not_ws_tokenChar (List.of_mem_filter h1) hw]

/-- The canonical form of any string is a space-join of lowercase
alphanumeric tokens none of which is a qualifier word, with no leading or
trailing empty token. -/
lemma normalize_eq_join (x : List Char) :
    ∃ ts, normalizeIngredientName x = joinSpc ts
      ∧ (∀ t ∈ ts, ∀ c ∈ t, isTokenChar c = true)
      ∧ (∀ t ∈ ts, dropQualTok t = t)
      ∧ trimEmpties ts = ts := by
  have hzok : ∀ c ∈ collapseWs ((trimWs (x.map asciiToLower)).filter keepChar),
      charOk c = true := collapse_chars_ok (trimWs (x.map asciiToLower))
  have hL4 := (dequalAux_tokens
    (collapseWs ((trimWs (x.map asciiToLower)).filter keepChar)).length
    (collapseWs ((trimWs (x.map asciiToLower)).filter keepChar))
    (le_refl _) hzok).1
  have htokz := splitSpc_tokens_chars _ hzok
  have htok1 : ∀ t ∈ (splitSpc (collapseWs
      ((trimWs (x.map asciiToLower)).filter keepChar))).map dropQualTok,
      ∀ c ∈ t, isTokenChar c = true := by
    intro t ht c hc
    obtain ⟨u, hu, rfl⟩ := List.mem_map.mp ht
    unfold dropQualTok at hc
    split at hc
    · simp at hc
    · exact htokz u hu c hc
  refine ⟨trimEmpties ((splitSpc (collapseWs
      ((trimWs (x.map asciiToLower)).filter keepChar))).map dropQualTok),
    ?_, ?_, ?_, trimEmpties_idem _⟩
  · show trimWs (removeQualifierWords _) = _
    rw [show removeQualifierWords (collapseWs
        ((trimWs (x.map asciiToLower)).filter keepChar))
      = dequalAux (collapseWs ((trimWs (x.map asciiToLower)).filter keepChar)).length
          false (collapseWs ((trimWs (x.map asciiToLower)).filter keepChar))
      from rfl, hL4]
    exact trimWs_joinSpc _ htok1
  · intro t ht
    exact htok1 t (trimEmpties_subset _ ht)
  · intro t ht
    obtain ⟨u, hu, rfl⟩ := List.mem_map.mp (trimEmpties_subset _ ht)
    exact dropQualTok_idem u

lemma map_toLower_fixed {s : List Char} (h : ∀ c ∈ s, charOk c = true) :
    s.map asciiToLower = s :=
  map_fixed asciiToLower s (fun c hc => charOk_toLower (h c hc))

lemma filter_keep_fixed {s : List Char} (h : ∀ c ∈ s, charOk c = true) :
    s.filter keepChar = s :=
  List.filter_eq_self.mpr (fun a ha => charOk_keepChar (h a ha))

lemma dequal_fixed_of_tokens {ts : List (List Char)}
    (htok : ∀ t ∈ ts, ∀ c ∈ t, isTokenChar c = true)
    (hfix : ∀ t ∈ ts, dropQualTok t = t) :
    removeQualifierWords (joinSpc ts) = joinSpc ts := by
  have hok := joinSpc_chars ts htok
  have hL4 := (dequalAux_tokens (joinSpc ts).length (joinSpc ts) (le_refl _) hok).1
  rw [show removeQualifierWords (joinSpc ts)
    = dequalAux (joinSpc ts).length false (joinSpc ts) from rfl, hL4]
  cases ts with
  | nil => rfl
  | cons t ts' =>
    rw [splitSpc_joinSpc (t :: ts') (by simp)
      (fun u hu => token_no_space (htok u hu)),
      map_fixed dropQualTok (t :: ts') hfix]


/-- C4, counterexample: the normalizer is not idempotent.  Removing the
interior qualifier `fresh` leaves a double space (whitespace collapsing runs
*before* qualifier removal), which a second application collapses:
`normalize "chicken fresh rice" = "chicken  rice"` but re-normalizing gives
`"chicken rice"`. -/
theorem normalize_idempotence_counterexample :
    normalizeIngredientName "chicken fresh rice".toList = "chicken  rice".toList
    ∧ normalizeIngredientName (normalizeIngredientName "chicken fresh rice".toList)
        = "chicken rice".toList
    ∧ normalizeIngredientName (normalizeIngredientName "chicken fresh rice".toList)
        ≠ normalizeIngredientName "chicken fresh rice".toList :=
  ⟨by decide, by decide, by decide⟩

/-- C4, amended: the normalizer is idempotent on every input whose canonical
form contains no two consecutive whitespace characters (equivalently, is
fixed by whitespace collapsing); a second application differs only in
collapsing the double spaces left by removing an interior qualifier word. -/
theorem normalize_idempotent_of_no_double_space (x : List Char)
    (h : collapseWs (normalizeIngredientName x) = normalizeIngredientName x) :
    normalizeIngredientName (normalizeIngredientName x)
      = normalizeIngredientName x := by
  obtain ⟨ts, hy, htok, hfix, hte⟩ := normalize_eq_join x
  have hok : ∀ c ∈ normalizeIngredientName x, charOk c = true := normalize_chars
  have htrim : trimWs (normalizeIngredientName x) = normalizeIngredientName x := by
    rw [hy, trimWs_joinSpc ts htok, hte]
  have hdq : removeQualifierWords (normalizeIngredientName x)
      = normalizeIngredientName x := by
    rw [hy]
    exact dequal_fixed_of_tokens htok hfix
  show trimWs (removeQualifierWords (collapseWs
    ((trimWs ((normalizeIngredientName x).map asciiToLower)).filter keepChar)))
    = normalizeIngredientName x
  rw [map_toLower_fixed hok, htrim, filter_keep_fixed hok, h, hdq, htrim]

/-- Witness for C4's amended theorem at `"Fresh  Chicken!"`, whose canonical
form `chicken` has no double space. -/
theorem normalize_idempotent_witness :
    normalizeIngredientName (normalizeIngredientName "Fresh  Chicken!".toList)
      = normalizeIngredientName "Fresh  Chicken!".toList :=
  normalize_idempotent_of_no_double_space "Fresh  Chicken!".toList (by decide)

end FoodPrint
